import Mathlib

/-!
Verification of `concatenate_diagrams.py`.

The script's core is three pure text transforms over lines of a Mermaid
class-diagram document:

* `replace_problematic_characters_in_signature` — escapes curly braces inside
  a matched method-signature region of a line;
* `replace_dots_with_underscores` — normalizes identifiers by mapping dots to
  underscores;
* `ensure_classes_declared` — a whole-document pass that rewrites declaration
  and relationship lines, collects declared and referenced identifiers, and
  splices synthesized declarations for referenced-but-undeclared identifiers
  before the closing code fence.

Lines are modelled as `List Char`.  The Python regexes involved are simple
enough that their backtracking behaviour is equivalent to deterministic
maximal-munch scanning with `takeWhile`/`dropWhile` (each character class in a
pattern is disjoint from the class of the following atom); the parsers below
implement exactly that and keep the capture groups of the source patterns.
Python semantics modelled: `\s` as the six ASCII whitespace characters, `\w`
as ASCII word characters (the inputs of interest are ASCII), `.` as any
character except a newline, and `set`s as lists compared by membership.
-/

set_option linter.unusedVariables false

namespace ConcatDiagrams

/-- A line of the document, as a list of characters. -/
abbrev Line := List Char

/-- The opening curly brace character (written by code point to keep source
text free of literal braces). -/
def lbrace : Char := Char.ofNat 123

/-- The closing curly brace character. -/
def rbrace : Char := Char.ofNat 125

/-- Python regex `\s` (ASCII range): space, tab, newline, carriage return,
vertical tab, form feed. -/
def pySpace (c : Char) : Bool :=
  c == ' ' || c == '\t' || c == '\n' || c == '\r' || c == '\x0b' || c == '\x0c'

/-- Python regex `\w` (ASCII range): letters, digits, underscore. -/
def pyWord (c : Char) : Bool := c.isAlpha || c.isDigit || c == '_'

/-- The character class `[\w\.]` of the declaration/relationship patterns. -/
def pyWordDot (c : Char) : Bool := pyWord c || c == '.'

/-- The character class `[<|-]` (first half of the connector pattern). -/
def isConn1 (c : Char) : Bool := c == '<' || c == '|' || c == '-'

/-- The character class `[->]` (second half of the connector pattern). -/
def isConn2 (c : Char) : Bool := c == '-' || c == '>'

/-- A character that can occur in a connector token. -/
def isConnChar (c : Char) : Bool := isConn1 c || isConn2 c

/-- Python `str.strip()`: remove leading and trailing whitespace. -/
def pyStrip (l : Line) : Line :=
  ((l.dropWhile pySpace).reverse.dropWhile pySpace).reverse

/-- `replace_dots_with_underscores` from the source: Python
`class_name.replace('.', '_')`, i.e. every dot becomes an underscore and no
other character changes. -/
def replace_dots_with_underscores (s : Line) : Line :=
  s.map (fun c => if c = '.' then '_' else c)

/-- The `char_map`-driven `pattern.sub` of the source: each curly brace is
replaced by its HTML entity code, all other characters are kept. -/
def char_map_sub (s : Line) : Line :=
  s.flatMap (fun c =>
    if c = lbrace then "&#123;".toList
    else if c = rbrace then "&#125;".toList
    else [c])

/-- The match of `^(\s*[-+]\w+\([^)]*\))(.*)` against a line: returns the two
capture groups (method signature, rest of line up to a newline) when the line
matches, `none` otherwise.  Maximal-munch scanning coincides with the regex
because `\s`, `[-+]`, `\w`, `(`, `[^)]` and `)` constrain each other so that
no backtracking path can succeed where the greedy one fails. -/
def parseSig (l : Line) : Option (Line × Line) :=
  let ws := l.takeWhile pySpace
  match l.dropWhile pySpace with
  | [] => none
  | c :: r2 =>
    if c == '+' || c == '-' then
      let idt := r2.takeWhile pyWord
      if idt = [] then none
      else
        match r2.dropWhile pyWord with
        | '(' :: r4 =>
          let params := r4.takeWhile (fun c => c != ')')
          match r4.dropWhile (fun c => c != ')') with
          | ')' :: r6 =>
            some (ws ++ c :: idt ++ '(' :: params ++ [')'],
                  r6.takeWhile (fun c => c != '\n'))
          | _ => none
        | _ => none
    else none

/-- `replace_problematic_characters_in_signature` from the source: escape the
braces inside the matched signature group, keep the matched rest group, and
return unmatched lines unchanged. -/
def replace_problematic_characters_in_signature (l : Line) : Line :=
  match parseSig l with
  | some (sig, rest) => char_map_sub sig ++ rest
  | none => l

/-- The characters of the declaration keyword `class`. -/
def kwClass : Line := ['c', 'l', 'a', 's', 's']

/-- The match of `^(\s*class\s+)([\w\.]+)(\s*\{?[^}]*)` against a line:
returns the three capture groups (keyword prefix, identifier, suffix).  The
suffix group stops at the first closing brace after the optional opening
brace; the remaining tail of the line is not part of any group. -/
def parseDecl (l : Line) : Option (Line × Line × Line) :=
  let ws := l.takeWhile pySpace
  let r1 := l.dropWhile pySpace
  if r1.take 5 = kwClass then
    let r2 := r1.drop 5
    let ws2 := r2.takeWhile pySpace
    if ws2 = [] then none
    else
      let r3 := r2.dropWhile pySpace
      let name := r3.takeWhile pyWordDot
      if name = [] then none
      else
        let r4 := r3.dropWhile pyWordDot
        let s3 := r4.takeWhile pySpace
        match r4.dropWhile pySpace with
        | c :: r6 =>
          if c = lbrace then
            some (ws ++ kwClass ++ ws2, name,
                  s3 ++ lbrace :: r6.takeWhile (fun c => c != rbrace))
          else
            some (ws ++ kwClass ++ ws2, name,
                  s3 ++ (c :: r6).takeWhile (fun c => c != rbrace))
        | [] => some (ws ++ kwClass ++ ws2, name, s3)
  else none

/-- Whether a maximal run of connector characters can be split as required by
`([<|-]+[->]+)`: a nonempty prefix over `[<|-]` followed by a nonempty suffix
over `[->]`.  The regex matches a relationship only when the whole run admits
such a split (a partial match leaves a connector character where the target
identifier must start). -/
def connOk (conn : Line) : Bool :=
  (List.range conn.length).any (fun k =>
    decide (0 < k) && (conn.take k).all isConn1 && (conn.drop k).all isConn2)

/-- The match of `^\s*([\w\.]+)\s*([<|-]+[->]+)\s*([\w\.]+)` against a line:
returns the leading whitespace (the `^(\s*)` group recomputed by the source
for the rewrite) and the three capture groups (source identifier, connector,
target identifier). -/
def parseRel (l : Line) : Option (Line × Line × Line × Line) :=
  let ws := l.takeWhile pySpace
  let r1 := l.dropWhile pySpace
  let src := r1.takeWhile pyWordDot
  if src = [] then none
  else
    let r2 := r1.dropWhile pyWordDot
    let r3 := r2.dropWhile pySpace
    let conn := r3.takeWhile isConnChar
    if connOk conn then
      let r4 := r3.dropWhile isConnChar
      let r5 := r4.dropWhile pySpace
      let tgt := r5.takeWhile pyWordDot
      if tgt = [] then none else some (ws, src, conn, tgt)
    else none

/-- The per-line rewrite of the scan loop in `ensure_classes_declared`:
declaration lines get their identifier normalized with prefix and suffix
groups kept, relationship lines are rebuilt from leading whitespace and the
normalized stripped groups, all other lines pass through unchanged. -/
def processLine (l : Line) : Line :=
  match parseDecl l with
  | some (pre, name, suf) =>
    pre ++ replace_dots_with_underscores (pyStrip name) ++ suf
  | none =>
    match parseRel l with
    | some (ws, src, conn, tgt) =>
      ws ++ replace_dots_with_underscores (pyStrip src)
         ++ ' ' :: pyStrip conn
         ++ ' ' :: replace_dots_with_underscores (pyStrip tgt)
    | none => l

/-- The contribution of one line to `declared_classes`: the normalized
identifier of a declaration line, nothing otherwise. -/
def declsOf (l : Line) : List Line :=
  match parseDecl l with
  | some (_, name, _) => [replace_dots_with_underscores (pyStrip name)]
  | none => []

/-- The contribution of one line to `referenced_classes`: the two normalized
endpoints of a relationship line; declaration lines contribute nothing
because the scan `continue`s before the relationship pattern is tried. -/
def refsOf (l : Line) : List Line :=
  match parseDecl l with
  | some _ => []
  | none =>
    match parseRel l with
    | some (_, src, _, tgt) =>
      [replace_dots_with_underscores (pyStrip src),
       replace_dots_with_underscores (pyStrip tgt)]
    | none => []

/-- All lines after the per-line rewrite phase (`processed_lines`). -/
def processedOf (ls : List Line) : List Line := ls.map processLine

/-- The set `declared_classes` accumulated over the whole scan, modelled as
the list of per-line contributions (membership gives the set). -/
def declaredOf (ls : List Line) : List Line := (ls.map declsOf).flatten

/-- The set `referenced_classes` accumulated over the whole scan. -/
def referencedOf (ls : List Line) : List Line := (ls.map refsOf).flatten

/-- The set difference `referenced_classes - declared_classes`, as a
duplicate-free list. -/
def missingOf (ls : List Line) : List Line :=
  ((referencedOf ls).filter (fun x => x ∉ declaredOf ls)).dedup

/-- Lexicographic (code point) comparison of identifier strings, the order
used by Python `sorted` on strings. -/
def strLt : Line → Line → Bool
  | [], [] => false
  | [], _ :: _ => true
  | _ :: _, [] => false
  | a :: as, b :: bs => if a < b then true else if b < a then false else strLt as bs

/-- Reflexive closure of `strLt`, used to state sortedness. -/
def strLe (a b : Line) : Bool := !(strLt b a)

/-- Insert an element into a sorted list of identifier strings. -/
def insertSorted (x : Line) : List Line → List Line
  | [] => [x]
  | y :: ys => if strLe x y then x :: y :: ys else y :: insertSorted x ys

/-- Sorting of the missing-identifier set; on a duplicate-free list this is
the sorted enumeration produced by Python `sorted(missing_classes)`. -/
def sortStrs : List Line → List Line
  | [] => []
  | x :: xs => insertSorted x (sortStrs xs)

/-- The closing code fence marker. -/
def fenceLine : Line := "```".toList

/-- The index of the last line whose stripped content is the closing fence,
found by the source's backwards scan. -/
def lastFenceIdx : List Line → Option Nat
  | [] => none
  | l :: ls =>
    match lastFenceIdx ls with
    | some i => some (i + 1)
    | none => if pyStrip l = fenceLine then some 0 else none

/-- The synthesized declaration lines `f'class {class_name}'` for the sorted
missing identifiers. -/
def declLinesOf (ls : List Line) : List Line :=
  (sortStrs (missingOf ls)).map (fun n => kwClass ++ ' ' :: n)

/-- The insertion step at the end of `ensure_classes_declared`: splice the
synthesized declarations into the processed lines before index `idx`, with
one separating blank line when the line just before the insertion point is
non-blank (Python guards this with `closing_code_block_index > 0`). -/
def spliceDecls (plines : List Line) (idx : Nat) (decls : List Line) : List Line :=
  let decls2 :=
    if 0 < idx ∧ pyStrip (plines.getD (idx - 1) []) ≠ [] then
      ([] : Line) :: decls
    else decls
  plines.take idx ++ decls2 ++ plines.drop idx

/-- `ensure_classes_declared` from the source: rewrite every line, compute
the missing identifiers, and if any are missing splice their synthesized
declarations before the last closing fence (appending a blank line and
inserting at the end when there is no fence). -/
def ensure_classes_declared (output_lines : List Line) : List Line :=
  let processed := processedOf output_lines
  let missing := missingOf output_lines
  if missing = [] then processed
  else
    let decls := (sortStrs missing).map (fun n => kwClass ++ ' ' :: n)
    match lastFenceIdx processed with
    | some i => spliceDecls processed i decls
    | none => spliceDecls (processed ++ [([] : Line)]) (processed.length + 1) decls


/-!
### Generic scanning lemmas

`takeWhile`/`dropWhile` behaviour at the boundary between a run of
characters satisfying a predicate and a first character that does not.
-/

theorem scan_split {α : Type} (p : α → Bool) (xs ys : List α)
    (h1 : ∀ x ∈ xs, p x = true)
    (h2 : ∀ c, ys.head? = some c → p c = false) :
    (xs ++ ys).takeWhile p = xs ∧ (xs ++ ys).dropWhile p = ys := by
  induction xs with
  | nil =>
    simp only [List.nil_append]
    cases ys with
    | nil => simp
    | cons c t =>
      have hc := h2 c rfl
      exact ⟨by simp [List.takeWhile_cons, hc], by simp [List.dropWhile_cons, hc]⟩
  | cons a as ih =>
    have ha : p a = true := h1 a (List.mem_cons_self a as)
    have ih' := ih (fun x hx => h1 x (List.mem_cons_of_mem a hx))
    simp [List.takeWhile_cons, List.dropWhile_cons, ha, ih'.1, ih'.2]

theorem scan_all {α : Type} (p : α → Bool) (l : List α)
    (h : ∀ x ∈ l, p x = true) :
    l.takeWhile p = l ∧ l.dropWhile p = [] := by
  have := scan_split p l [] h (fun c hc => by cases hc)
  simpa using this

theorem scan_head_false {α : Type} (p : α → Bool) (l : List α)
    (h : ∀ c, l.head? = some c → p c = false) :
    l.takeWhile p = [] ∧ l.dropWhile p = l := by
  have := scan_split p [] l (by intro x hx; cases hx) h
  simpa using this

theorem scan_append_all {α : Type} (p : α → Bool) (xs ys : List α)
    (h : ∀ x ∈ xs, p x = true) :
    (xs ++ ys).takeWhile p = xs ++ ys.takeWhile p ∧
      (xs ++ ys).dropWhile p = ys.dropWhile p := by
  induction xs with
  | nil => simp
  | cons a as ih =>
    have ha : p a = true := h a (List.mem_cons_self a as)
    have ih' := ih (fun x hx => h x (List.mem_cons_of_mem a hx))
    simp [List.takeWhile_cons, List.dropWhile_cons, ha, ih'.1, ih'.2]

theorem dropWhile_head_not {α : Type} (p : α → Bool) (l : List α) :
    ∀ c, (l.dropWhile p).head? = some c → p c = false := by
  induction l with
  | nil => intro c hc; cases hc
  | cons a t ih =>
    intro c hc
    by_cases ha : p a = true
    · rw [List.dropWhile_cons, if_pos ha] at hc; exact ih c hc
    · rw [List.dropWhile_cons, if_neg ha] at hc
      cases hc
      exact Bool.eq_false_iff.mpr ha

theorem takeWhile_nil_dropWhile {α : Type} (p : α → Bool) (l : List α)
    (h : l.takeWhile p = []) : l.dropWhile p = l := by
  cases l with
  | nil => rfl
  | cons a t =>
    rw [List.takeWhile_cons] at h
    by_cases ha : p a = true
    · rw [if_pos ha] at h; cases h
    · rw [List.dropWhile_cons, if_neg ha]

/-!
### Character class facts
-/

theorem pySpace_cases {c : Char} (h : pySpace c = true) :
    c = ' ' ∨ c = '\t' ∨ c = '\n' ∨ c = '\r' ∨ c = '\x0b' ∨ c = '\x0c' := by
  simp only [pySpace, Bool.or_eq_true, beq_iff_eq] at h
  tauto

theorem pySpace_not_wordDot {c : Char} (h : pySpace c = true) : pyWordDot c = false := by
  rcases pySpace_cases h with h | h | h | h | h | h <;> subst h <;> decide

theorem pyWordDot_not_space {c : Char} (h : pyWordDot c = true) : pySpace c = false := by
  by_contra hc
  rw [Bool.not_eq_false] at hc
  rw [pySpace_not_wordDot hc] at h
  cases h

theorem isConnChar_cases {c : Char} (h : isConnChar c = true) :
    c = '<' ∨ c = '|' ∨ c = '-' ∨ c = '>' := by
  simp only [isConnChar, isConn1, isConn2, Bool.or_eq_true, beq_iff_eq] at h
  tauto

theorem isConnChar_not_space {c : Char} (h : isConnChar c = true) : pySpace c = false := by
  rcases isConnChar_cases h with h | h | h | h <;> subst h <;> decide

theorem isConnChar_not_wordDot {c : Char} (h : isConnChar c = true) : pyWordDot c = false := by
  rcases isConnChar_cases h with h | h | h | h <;> subst h <;> decide

theorem pyWord_ne_dot {c : Char} (h : pyWord c = true) : c ≠ '.' := by
  intro hc
  subst hc
  cases h

theorem pyWord_wordDot {c : Char} (h : pyWord c = true) : pyWordDot c = true := by
  simp [pyWordDot, h]

/-!
### Facts about the two normalizers
-/

theorem normCh_wordDot {c : Char} (h : pyWordDot c = true) :
    pyWordDot (if c = '.' then '_' else c) = true := by
  by_cases hc : c = '.'
  · rw [if_pos hc]; decide
  · rw [if_neg hc]; exact h

theorem normCh_word {c : Char} (h : pyWordDot c = true) :
    pyWord (if c = '.' then '_' else c) = true := by
  by_cases hc : c = '.'
  · rw [if_pos hc]; decide
  · rw [if_neg hc]
    simp only [pyWordDot, Bool.or_eq_true, beq_iff_eq] at h
    rcases h with h | h
    · exact h
    · exact absurd h hc

theorem normCh_ne_dot (c : Char) : (if c = '.' then '_' else c) ≠ '.' := by
  by_cases hc : c = '.'
  · rw [if_pos hc]; decide
  · rw [if_neg hc]; exact hc

theorem rdwu_all_wordDot {s : Line} (h : ∀ c ∈ s, pyWordDot c = true) :
    ∀ c ∈ replace_dots_with_underscores s, pyWordDot c = true := by
  intro c hc
  rcases List.mem_map.mp hc with ⟨c0, hc0, rfl⟩
  exact normCh_wordDot (h c0 hc0)

theorem rdwu_all_word {s : Line} (h : ∀ c ∈ s, pyWordDot c = true) :
    ∀ c ∈ replace_dots_with_underscores s, pyWord c = true := by
  intro c hc
  rcases List.mem_map.mp hc with ⟨c0, hc0, rfl⟩
  exact normCh_word (h c0 hc0)

theorem rdwu_no_dot (s : Line) : ∀ c ∈ replace_dots_with_underscores s, c ≠ '.' := by
  intro c hc
  rcases List.mem_map.mp hc with ⟨c0, _, rfl⟩
  exact normCh_ne_dot c0

theorem rdwu_id_of_no_dot {s : Line} (h : ∀ c ∈ s, c ≠ '.') :
    replace_dots_with_underscores s = s := by
  unfold replace_dots_with_underscores
  induction s with
  | nil => rfl
  | cons a t ih =>
    rw [List.map_cons, if_neg (h a (List.mem_cons_self a t)),
        ih (fun c hc => h c (List.mem_cons_of_mem a hc))]

theorem rdwu_idem (s : Line) :
    replace_dots_with_underscores (replace_dots_with_underscores s)
      = replace_dots_with_underscores s :=
  rdwu_id_of_no_dot (rdwu_no_dot s)

theorem rdwu_ne_nil {s : Line} (h : s ≠ []) : replace_dots_with_underscores s ≠ [] := by
  unfold replace_dots_with_underscores
  simpa using h

theorem dropWhile_all_false {α : Type} (p : α → Bool) (l : List α)
    (h : ∀ x ∈ l, p x = false) : l.dropWhile p = l := by
  cases l with
  | nil => rfl
  | cons a t =>
    rw [List.dropWhile_cons, if_neg]
    rw [h a (List.mem_cons_self a t)]
    simp

theorem pyStrip_of_no_space {s : Line} (h : ∀ c ∈ s, pySpace c = false) :
    pyStrip s = s := by
  unfold pyStrip
  rw [dropWhile_all_false pySpace s h]
  rw [dropWhile_all_false pySpace s.reverse (fun c hc => h c (List.mem_reverse.mp hc))]
  exact List.reverse_reverse s

theorem pyStrip_of_wordDot {s : Line} (h : ∀ c ∈ s, pyWordDot c = true) :
    pyStrip s = s :=
  pyStrip_of_no_space (fun c hc => pyWordDot_not_space (h c hc))

theorem pyStrip_of_connChar {s : Line} (h : ∀ c ∈ s, isConnChar c = true) :
    pyStrip s = s :=
  pyStrip_of_no_space (fun c hc => isConnChar_not_space (h c hc))

theorem pyStrip_nil : pyStrip [] = [] := rfl


/-!
### Small helpers for heads and boundaries
-/

theorem mem_takeWhile_bne {l : Line} {d : Char} :
    ∀ c ∈ l.takeWhile (fun c => c != d), c ≠ d := by
  intro c hc
  have := List.mem_takeWhile_imp hc
  simpa [bne_iff_ne] using this

theorem all_bne_of_ne {l : Line} {d : Char} (h : ∀ c ∈ l, c ≠ d) :
    ∀ c ∈ l, (c != d) = true := by
  intro c hc
  simpa [bne_iff_ne] using h c hc

theorem takeWhile_head?_some {α : Type} (p : α → Bool) (l : List α) (c : α)
    (h : (l.takeWhile p).head? = some c) : l.head? = some c := by
  cases l with
  | nil => cases h
  | cons a t =>
    rw [List.takeWhile_cons] at h
    by_cases hp : p a = true
    · rw [if_pos hp] at h
      simpa using h
    · rw [if_neg hp] at h
      cases h

theorem head?_append_split (s3 rest : Line) (hs3 : ∀ c ∈ s3, pySpace c = true) :
    ∀ c, (s3 ++ rest).head? = some c →
      pySpace c = true ∨ (s3 = [] ∧ rest.head? = some c) := by
  cases s3 with
  | nil =>
    intro c h
    exact Or.inr ⟨rfl, by simpa using h⟩
  | cons d t =>
    intro c h
    simp only [List.cons_append, List.head?_cons, Option.some.injEq] at h
    exact Or.inl (h ▸ hs3 d (List.mem_cons_self d t))

theorem dropWhile_bne_shape (d : Char) (l : Line) :
    l.dropWhile (fun c => c != d) = [] ∨
      ∃ t, l.dropWhile (fun c => c != d) = d :: t := by
  cases hdrop : l.dropWhile (fun c => c != d) with
  | nil => exact Or.inl rfl
  | cons a t =>
    right
    refine ⟨t, ?_⟩
    have ha : (fun c => c != d) a = false :=
      dropWhile_head_not _ l a (by rw [hdrop]; rfl)
    have : a = d := by simpa [bne_iff_ne] using ha
    rw [this]

/-!
### Structural characterization of a declaration match

`DeclCore pre suf` records everything about the prefix and suffix groups of a
successful `parseDecl` match that is needed to re-parse a rewritten
declaration line `pre ++ name ++ suf`.
-/

def DeclCore (pre suf : Line) : Prop :=
  ∃ ws ws2 s3 br body,
    pre = ws ++ kwClass ++ ws2 ∧
    suf = s3 ++ br ++ body ∧
    (∀ c ∈ ws, pySpace c = true) ∧
    (∀ c ∈ ws2, pySpace c = true) ∧ ws2 ≠ [] ∧
    (∀ c ∈ s3, pySpace c = true) ∧
    (br = [] ∨ br = [lbrace]) ∧
    (∀ c ∈ body, c ≠ rbrace) ∧
    (∀ c, suf.head? = some c → pyWordDot c = false) ∧
    (∀ c, (br ++ body).head? = some c → pySpace c = false) ∧
    (br = [] → ∀ c, body.head? = some c → c ≠ lbrace)

theorem parseDecl_sound {l pre name suf : Line}
    (h : parseDecl l = some (pre, name, suf)) :
    DeclCore pre suf ∧ (∀ c ∈ name, pyWordDot c = true) ∧ name ≠ [] ∧
      ∃ rest, l = pre ++ name ++ suf ++ rest ∧
        (rest = [] ∨ ∃ t, rest = rbrace :: t) := by
  simp only [parseDecl] at h
  split at h
  case isFalse => exact absurd h (by simp)
  case isTrue htake =>
  split at h
  case isTrue => exact absurd h (by simp)
  case isFalse hws2 =>
  split at h
  case isTrue => exact absurd h (by simp)
  case isFalse hnm =>
  -- abbreviations for the scan positions
  set ws := l.takeWhile pySpace with hws_def
  set r1 := l.dropWhile pySpace with hr1_def
  set r2 := r1.drop 5 with hr2_def
  set ws2 := r2.takeWhile pySpace with hws2_def
  set r3 := r2.dropWhile pySpace with hr3_def
  set nm := r3.takeWhile pyWordDot with hnm_def
  set r4 := r3.dropWhile pyWordDot with hr4_def
  set s3 := r4.takeWhile pySpace with hs3_def
  have e1 : l = ws ++ r1 := (List.takeWhile_append_dropWhile pySpace l).symm
  have e2 : r1 = kwClass ++ r2 := by
    have := List.take_append_drop 5 r1
    rw [htake] at this
    exact this.symm
  have e3 : r2 = ws2 ++ r3 := (List.takeWhile_append_dropWhile pySpace r2).symm
  have e4 : r3 = nm ++ r4 := (List.takeWhile_append_dropWhile pyWordDot r3).symm
  have e5 : r4 = s3 ++ r4.dropWhile pySpace := (List.takeWhile_append_dropWhile pySpace r4).symm
  have hws_sp : ∀ c ∈ ws, pySpace c = true := fun c hc => List.mem_takeWhile_imp hc
  have hws2_sp : ∀ c ∈ ws2, pySpace c = true := fun c hc => List.mem_takeWhile_imp hc
  have hs3_sp : ∀ c ∈ s3, pySpace c = true := fun c hc => List.mem_takeWhile_imp hc
  have hnm_wd : ∀ c ∈ nm, pyWordDot c = true := fun c hc => List.mem_takeWhile_imp hc
  have hr4_head : ∀ c, r4.head? = some c → pyWordDot c = false :=
    dropWhile_head_not pyWordDot r3
  have hr5_head : ∀ c, (r4.dropWhile pySpace).head? = some c → pySpace c = false :=
    dropWhile_head_not pySpace r4
  split at h
  case h_2 heq5 =>
    -- `r5 = []`: no brace part, suffix is just the trailing whitespace
    rw [Option.some.injEq, Prod.mk.injEq, Prod.mk.injEq] at h
    obtain ⟨hpre, hname, hsuf⟩ := h
    have hr5nil : r4.dropWhile pySpace = [] := heq5
    have e5' : r4 = s3 := by rw [e5, hr5nil, List.append_nil]
    refine ⟨⟨ws, ws2, s3, [], [], hpre.symm, by rw [← hsuf, List.append_nil, List.append_nil],
      hws_sp, hws2_sp, hws2, hs3_sp, Or.inl rfl, by simp, ?_, by simp, by simp⟩,
      by rw [← hname]; exact hnm_wd, by rw [← hname]; exact hnm, [], ?_, Or.inl rfl⟩
    · intro c hc
      rw [← hsuf] at hc
      rcases head?_append_split s3 [] hs3_sp c (by simpa using hc) with hsp | ⟨_, hh⟩
      · exact pySpace_not_wordDot hsp
      · cases hh
    · rw [e1, e2, e3, e4, e5', ← hpre, ← hname, ← hsuf]
      simp [List.append_assoc]
  case h_1 c r6 heq5 =>
    split at h
    case isTrue hlb =>
      -- `r5 = lbrace :: r6`
      rw [Option.some.injEq, Prod.mk.injEq, Prod.mk.injEq] at h
      obtain ⟨hpre, hname, hsuf⟩ := h
      subst hlb
      set body := r6.takeWhile (fun c => c != rbrace) with hbody_def
      have e6 : r6 = body ++ r6.dropWhile (fun c => c != rbrace) :=
        (List.takeWhile_append_dropWhile _ r6).symm
      refine ⟨⟨ws, ws2, s3, [lbrace], body, hpre.symm,
        by rw [← hsuf]; simp, hws_sp, hws2_sp, hws2, hs3_sp, Or.inr rfl,
        mem_takeWhile_bne, ?_, ?_, ?_⟩,
        by rw [← hname]; exact hnm_wd, by rw [← hname]; exact hnm,
        r6.dropWhile (fun c => c != rbrace), ?_, ?_⟩
      · intro c0 hc0
        rw [← hsuf] at hc0
        rcases head?_append_split s3 (lbrace :: body) hs3_sp c0 hc0 with hsp | ⟨_, hh⟩
        · exact pySpace_not_wordDot hsp
        · simp only [List.head?_cons, Option.some.injEq] at hh
          exact hh ▸ (by decide : pyWordDot lbrace = false)
      · intro c0 hc0
        simp only [List.cons_append, List.nil_append, List.head?_cons, Option.some.injEq] at hc0
        subst hc0
        decide
      · intro habs
        exact absurd habs (by simp)
      · conv_lhs => rw [e1, e2, e3, e4, e5, heq5, e6]
        rw [← hpre, ← hname, ← hsuf]
        simp [List.append_assoc]
      · exact dropWhile_bne_shape rbrace r6
    case isFalse hlb =>
      -- `r5 = c :: r6` with `c` not an opening brace
      rw [Option.some.injEq, Prod.mk.injEq, Prod.mk.injEq] at h
      obtain ⟨hpre, hname, hsuf⟩ := h
      set body := (c :: r6).takeWhile (fun c => c != rbrace) with hbody_def
      have e6 : (c :: r6) = body ++ (c :: r6).dropWhile (fun c => c != rbrace) :=
        (List.takeWhile_append_dropWhile _ (c :: r6)).symm
      have hbody_head : ∀ c0, body.head? = some c0 → c0 = c := by
        intro c0 hc0
        have h2 : (c :: r6).head? = some c0 := takeWhile_head?_some _ (c :: r6) c0 hc0
        simp only [List.head?_cons, Option.some.injEq] at h2
        exact h2.symm
      have hr5_head' : ∀ c0, (c :: r6).head? = some c0 → pySpace c0 = false := by
        rw [← heq5]
        exact hr5_head
      refine ⟨⟨ws, ws2, s3, [], body, hpre.symm,
        by rw [← hsuf]; simp, hws_sp, hws2_sp, hws2, hs3_sp, Or.inl rfl,
        mem_takeWhile_bne, ?_, ?_, ?_⟩,
        by rw [← hname]; exact hnm_wd, by rw [← hname]; exact hnm,
        (c :: r6).dropWhile (fun c => c != rbrace), ?_, ?_⟩
      · intro c0 hc0
        rw [← hsuf] at hc0
        rcases head?_append_split s3 _ hs3_sp c0 (by simpa using hc0) with hsp | ⟨hs3nil, hh⟩
        · exact pySpace_not_wordDot hsp
        · have hc0c : c0 = c := hbody_head c0 hh
          subst hc0c
          have hr5r4 : r4.dropWhile pySpace = r4 := takeWhile_nil_dropWhile pySpace r4 hs3nil
          apply hr4_head
          rw [← hr5r4, heq5]
          rfl
      · intro c0 hc0
        simp only [List.nil_append] at hc0
        have hc0c : c0 = c := hbody_head c0 hc0
        subst hc0c
        exact hr5_head' c0 rfl
      · intro _ c0 hc0
        have hc0c : c0 = c := hbody_head c0 hc0
        subst hc0c
        exact hlb
      · rw [e1, e2, e3, e4, e5, heq5, ← hpre, ← hname]
        rw [← hsuf]
        conv_lhs => rw [e6]
        simp [List.append_assoc]
      · exact dropWhile_bne_shape rbrace (c :: r6)


theorem take5_kw (z : Line) : (kwClass ++ z).take 5 = kwClass := rfl

theorem drop5_kw (z : Line) : (kwClass ++ z).drop 5 = z := rfl

theorem head?_kw (z : Line) : (kwClass ++ z).head? = some 'c' := rfl

theorem parseDecl_complete {pre name suf : Line} (hc : DeclCore pre suf)
    (hname : ∀ c ∈ name, pyWordDot c = true) (hne : name ≠ []) :
    parseDecl (pre ++ name ++ suf) = some (pre, name, suf) := by
  obtain ⟨ws, ws2, s3, br, body, hpre, hsuf, hws_sp, hws2_sp, hws2ne, hs3_sp,
    hbr, hbody, hsuf_head, hbrbody_head, hbr_body_head⟩ := hc
  subst hpre
  subst hsuf
  have hX : (ws ++ kwClass ++ ws2) ++ name ++ (s3 ++ br ++ body)
      = ws ++ (kwClass ++ (ws2 ++ (name ++ (s3 ++ (br ++ body))))) := by
    simp [List.append_assoc]
  rw [hX]
  have step1 := scan_split pySpace ws (kwClass ++ (ws2 ++ (name ++ (s3 ++ (br ++ body)))))
    hws_sp (fun c hc => by rw [head?_kw] at hc; injection hc with hc; subst hc; decide)
  have hnamehd : ∀ c, (name ++ (s3 ++ (br ++ body))).head? = some c → pySpace c = false := by
    intro c hc
    cases name with
    | nil => exact absurd rfl hne
    | cons n0 t =>
      simp only [List.cons_append, List.head?_cons, Option.some.injEq] at hc
      exact hc ▸ pyWordDot_not_space (hname n0 (List.mem_cons_self n0 t))
  have step3 := scan_split pySpace ws2 (name ++ (s3 ++ (br ++ body))) hws2_sp hnamehd
  have hsufhd : ∀ c, (s3 ++ (br ++ body)).head? = some c → pyWordDot c = false := by
    intro c hc
    apply hsuf_head
    rw [List.append_assoc]
    exact hc
  have step4 := scan_split pyWordDot name (s3 ++ (br ++ body)) hname hsufhd
  have step5 := scan_split pySpace s3 (br ++ body) hs3_sp
    (fun c hc => hbrbody_head c hc)
  simp only [parseDecl]
  rw [step1.1, step1.2, take5_kw, if_pos rfl, drop5_kw, step3.1]
  rw [if_neg hws2ne, step3.2, step4.1, if_neg hne, step4.2]
  rw [step5.1, step5.2]
  rcases hbr with hbrnil | hbrlb
  · subst hbrnil
    simp only [List.nil_append]
    cases body with
    | nil => simp
    | cons d b =>
      have hd_ne : d ≠ lbrace :=
        hbr_body_head rfl d rfl
      have hbody_all : ∀ c ∈ d :: b, (c != rbrace) = true := all_bne_of_ne hbody
      have htw := scan_all (fun c => c != rbrace) (d :: b) hbody_all
      simp [hd_ne, htw.1]
  · subst hbrlb
    simp only [List.cons_append, List.singleton_append]
    have hbody_all : ∀ c ∈ body, (c != rbrace) = true := all_bne_of_ne hbody
    have htw := scan_all (fun c => c != rbrace) body hbody_all
    simp [htw.1]


theorem head?_pred {l : Line} {p : Char → Bool} (h : ∀ c ∈ l, p c = true) :
    ∀ c, l.head? = some c → p c = true := by
  intro c hc
  cases l with
  | nil => cases hc
  | cons a t =>
    simp only [List.head?_cons, Option.some.injEq] at hc
    exact hc ▸ h a (List.mem_cons_self a t)

theorem head?_append_pred {xs ys : Line} {p : Char → Bool} (hne : xs ≠ [])
    (h : ∀ c ∈ xs, p c = true) :
    ∀ c, (xs ++ ys).head? = some c → p c = true := by
  intro c hc
  cases xs with
  | nil => exact absurd rfl hne
  | cons a t =>
    simp only [List.cons_append, List.head?_cons, Option.some.injEq] at hc
    exact hc ▸ h a (List.mem_cons_self a t)

theorem connOk_ne_nil {conn : Line} (h : connOk conn = true) : conn ≠ [] := by
  intro hc
  subst hc
  simp [connOk] at h

theorem parseRel_sound {l ws src conn tgt : Line}
    (h : parseRel l = some (ws, src, conn, tgt)) :
    (∀ c ∈ ws, pySpace c = true) ∧
    (∀ c ∈ src, pyWordDot c = true) ∧ src ≠ [] ∧
    (∀ c ∈ conn, isConnChar c = true) ∧ connOk conn = true ∧ conn ≠ [] ∧
    (∀ c ∈ tgt, pyWordDot c = true) ∧ tgt ≠ [] ∧
    ∃ gap1 gap2 rest,
      l = ws ++ (src ++ (gap1 ++ (conn ++ (gap2 ++ (tgt ++ rest))))) ∧
      (∀ c ∈ gap1, pySpace c = true) ∧ (∀ c ∈ gap2, pySpace c = true) := by
  simp only [parseRel] at h
  split at h
  case isTrue => exact absurd h (by simp)
  case isFalse hsrcne =>
  split at h
  case isFalse => exact absurd h (by simp)
  case isTrue hok =>
  split at h
  case isTrue => exact absurd h (by simp)
  case isFalse htgtne =>
  rw [Option.some.injEq, Prod.mk.injEq, Prod.mk.injEq, Prod.mk.injEq] at h
  obtain ⟨hws, hsrc, hconn, htgt⟩ := h
  set wsv := l.takeWhile pySpace with hws_def
  set r1 := l.dropWhile pySpace with hr1_def
  set srcv := r1.takeWhile pyWordDot with hsrc_def
  set r2 := r1.dropWhile pyWordDot with hr2_def
  set gap1 := r2.takeWhile pySpace with hgap1_def
  set r3 := r2.dropWhile pySpace with hr3_def
  set connv := r3.takeWhile isConnChar with hconn_def
  set r4 := r3.dropWhile isConnChar with hr4_def
  set gap2 := r4.takeWhile pySpace with hgap2_def
  set r5 := r4.dropWhile pySpace with hr5_def
  set tgtv := r5.takeWhile pyWordDot with htgt_def
  have e1 : l = wsv ++ r1 := (List.takeWhile_append_dropWhile pySpace l).symm
  have e2 : r1 = srcv ++ r2 := (List.takeWhile_append_dropWhile pyWordDot r1).symm
  have e3 : r2 = gap1 ++ r3 := (List.takeWhile_append_dropWhile pySpace r2).symm
  have e4 : r3 = connv ++ r4 := (List.takeWhile_append_dropWhile isConnChar r3).symm
  have e5 : r4 = gap2 ++ r5 := (List.takeWhile_append_dropWhile pySpace r4).symm
  have e6 : r5 = tgtv ++ r5.dropWhile pyWordDot :=
    (List.takeWhile_append_dropWhile pyWordDot r5).symm
  subst hws hsrc hconn htgt
  refine ⟨fun c hc => List.mem_takeWhile_imp hc,
    fun c hc => List.mem_takeWhile_imp hc, hsrcne,
    fun c hc => List.mem_takeWhile_imp hc, hok, connOk_ne_nil hok,
    fun c hc => List.mem_takeWhile_imp hc, htgtne,
    gap1, gap2, r5.dropWhile pyWordDot, ?_,
    fun c hc => List.mem_takeWhile_imp hc,
    fun c hc => List.mem_takeWhile_imp hc⟩
  conv_lhs => rw [e1, e2, e3, e4, e5, e6]

theorem parseDecl_relLine_none {src conn : Line} (z : Line)
    (hsrc : ∀ c ∈ src, pyWordDot c = true) (hsrcne : src ≠ [])
    (hconn : ∀ c ∈ conn, isConnChar c = true) (hconnne : conn ≠ [])
    {ws : Line} (hws : ∀ c ∈ ws, pySpace c = true) :
    parseDecl (ws ++ (src ++ (' ' :: (conn ++ ' ' :: z)))) = none := by
  have hsrchd : ∀ c, (src ++ (' ' :: (conn ++ ' ' :: z))).head? = some c → pySpace c = false :=
    fun c hc => pyWordDot_not_space (head?_append_pred hsrcne hsrc c hc)
  have step1 := scan_split pySpace ws (src ++ (' ' :: (conn ++ ' ' :: z))) hws hsrchd
  have hconnhd_sp : ∀ c, (conn ++ ' ' :: z).head? = some c → pySpace c = false :=
    fun c hc => isConnChar_not_space (head?_append_pred hconnne hconn c hc)
  have hconnhd_wd : ∀ c, (conn ++ ' ' :: z).head? = some c → pyWordDot c = false :=
    fun c hc => isConnChar_not_wordDot (head?_append_pred hconnne hconn c hc)
  simp only [parseDecl]
  rw [step1.2]
  by_cases h5 : (src ++ (' ' :: (conn ++ ' ' :: z))).take 5 = kwClass
  · rw [if_pos h5]
    have heqt : src ++ (' ' :: (conn ++ ' ' :: z))
        = kwClass ++ (src ++ (' ' :: (conn ++ ' ' :: z))).drop 5 := by
      conv_lhs => rw [← List.take_append_drop 5 (src ++ (' ' :: (conn ++ ' ' :: z)))]
      rw [h5]
    set t := (src ++ (' ' :: (conn ++ ' ' :: z))).drop 5 with ht_def
    have hkw_wd : ∀ c ∈ kwClass, pyWordDot c = true := by decide
    have htw1 : (src ++ (' ' :: (conn ++ ' ' :: z))).takeWhile pyWordDot = src :=
      (scan_split pyWordDot src _ hsrc
        (fun c hc => by
          simp only [List.head?_cons, Option.some.injEq] at hc
          exact hc ▸ (by decide : pyWordDot ' ' = false))).1
    have hsrc_eq : src = kwClass ++ t.takeWhile pyWordDot := by
      rw [← htw1, heqt]
      exact (scan_append_all pyWordDot kwClass t hkw_wd).1
    cases htw : t.takeWhile pyWordDot with
    | nil =>
      rw [htw, List.append_nil] at hsrc_eq
      have ht_eq : t = ' ' :: (conn ++ ' ' :: z) := by
        apply @List.append_cancel_left Char kwClass
        rw [← heqt, hsrc_eq]
      rw [ht_eq]
      have hws2 : List.takeWhile pySpace (' ' :: (conn ++ ' ' :: z))
          = ' ' :: List.takeWhile pySpace (conn ++ ' ' :: z) := by
        rw [List.takeWhile_cons, if_pos (by decide : pySpace ' ' = true)]
      have hconn_tw := scan_head_false pySpace (conn ++ ' ' :: z) hconnhd_sp
      have hname_tw := scan_head_false pyWordDot (conn ++ ' ' :: z) hconnhd_wd
      rw [hws2, hconn_tw.1]
      rw [if_neg (by simp : ¬(' ' :: ([] : Line)) = [])]
      have hdw : List.dropWhile pySpace (' ' :: (conn ++ ' ' :: z))
          = conn ++ ' ' :: z := by
        rw [List.dropWhile_cons, if_pos (by decide : pySpace ' ' = true), hconn_tw.2]
      rw [hdw, hname_tw.1, if_pos rfl]
    | cons a tw' =>
      have ha_wd : pyWordDot a = true := by
        have : a ∈ t.takeWhile pyWordDot := by rw [htw]; exact List.mem_cons_self a tw'
        exact List.mem_takeWhile_imp this
      have ht_eq : t = (a :: tw') ++ (' ' :: (conn ++ ' ' :: z)) := by
        apply @List.append_cancel_left Char kwClass
        rw [← heqt, hsrc_eq, htw]
        simp [List.append_assoc]
      rw [ht_eq]
      have : List.takeWhile pySpace ((a :: tw') ++ (' ' :: (conn ++ ' ' :: z))) = [] := by
        rw [List.cons_append, List.takeWhile_cons, if_neg]
        rw [pyWordDot_not_space ha_wd]
        simp
      rw [this, if_pos rfl]
  · rw [if_neg h5]

theorem parseRel_relLine {ws src conn tgt : Line}
    (hws : ∀ c ∈ ws, pySpace c = true)
    (hsrc : ∀ c ∈ src, pyWordDot c = true) (hsrcne : src ≠ [])
    (hconn : ∀ c ∈ conn, isConnChar c = true) (hconnne : conn ≠ [])
    (hok : connOk conn = true)
    (htgt : ∀ c ∈ tgt, pyWordDot c = true) (htgtne : tgt ≠ []) :
    parseRel (ws ++ (src ++ (' ' :: (conn ++ ' ' :: tgt)))) = some (ws, src, conn, tgt) := by
  have hsrchd : ∀ c, (src ++ (' ' :: (conn ++ ' ' :: tgt))).head? = some c → pySpace c = false :=
    fun c hc => pyWordDot_not_space (head?_append_pred hsrcne hsrc c hc)
  have step1 := scan_split pySpace ws (src ++ (' ' :: (conn ++ ' ' :: tgt))) hws hsrchd
  have step2 := scan_split pyWordDot src (' ' :: (conn ++ ' ' :: tgt)) hsrc
    (fun c hc => by
      simp only [List.head?_cons, Option.some.injEq] at hc
      exact hc ▸ (by decide : pyWordDot ' ' = false))
  have hconnhd_sp : ∀ c, (conn ++ ' ' :: tgt).head? = some c → pySpace c = false :=
    fun c hc => isConnChar_not_space (head?_append_pred hconnne hconn c hc)
  have step3 := scan_head_false pySpace (conn ++ ' ' :: tgt) hconnhd_sp
  have step4 := scan_split isConnChar conn (' ' :: tgt) hconn
    (fun c hc => by
      simp only [List.head?_cons, Option.some.injEq] at hc
      exact hc ▸ (by decide : isConnChar ' ' = false))
  have htgt_tw := scan_all pyWordDot tgt htgt
  have htgthd : ∀ c, tgt.head? = some c → pySpace c = false :=
    fun c hc => pyWordDot_not_space (head?_pred htgt c hc)
  have htgt_dw := scan_head_false pySpace tgt htgthd
  simp only [parseRel]
  rw [step1.1, step1.2, step2.1, if_neg hsrcne, step2.2]
  have hdw1 : List.dropWhile pySpace (' ' :: (conn ++ ' ' :: tgt)) = conn ++ ' ' :: tgt := by
    rw [List.dropWhile_cons, if_pos (by decide : pySpace ' ' = true), step3.2]
  rw [hdw1, step4.1, if_pos hok, step4.2]
  have hdw2 : List.dropWhile pySpace (' ' :: tgt) = tgt := by
    rw [List.dropWhile_cons, if_pos (by decide : pySpace ' ' = true), htgt_dw.2]
  rw [hdw2, htgt_tw.1, if_neg htgtne]


/-!
### Per-line facts: reprocessing a rewritten line is the identity
-/

theorem processLine_nil : processLine [] = [] := by decide

theorem declsOf_nil : declsOf [] = [] := by decide

theorem refsOf_nil : refsOf [] = [] := by decide

theorem processLine_idem (l : Line) :
    processLine (processLine l) = processLine l ∧
    declsOf (processLine l) = declsOf l ∧
    refsOf (processLine l) = refsOf l := by
  cases hd : parseDecl l with
  | some v =>
    obtain ⟨pre, name, suf⟩ := v
    obtain ⟨hcore, hname_wd, hname_ne, _⟩ := parseDecl_sound hd
    have hstrip : pyStrip name = name := pyStrip_of_wordDot hname_wd
    have hn2_wd : ∀ c ∈ replace_dots_with_underscores name, pyWordDot c = true :=
      rdwu_all_wordDot hname_wd
    have hn2_ne : replace_dots_with_underscores name ≠ [] := rdwu_ne_nil hname_ne
    have hout : processLine l = pre ++ replace_dots_with_underscores name ++ suf := by
      simp only [processLine, hd, hstrip]
    have hre : parseDecl (pre ++ replace_dots_with_underscores name ++ suf)
        = some (pre, replace_dots_with_underscores name, suf) :=
      parseDecl_complete hcore hn2_wd hn2_ne
    have hstr2 : pyStrip (replace_dots_with_underscores name)
        = replace_dots_with_underscores name := pyStrip_of_wordDot hn2_wd
    have hnorm2 : replace_dots_with_underscores (replace_dots_with_underscores name)
        = replace_dots_with_underscores name := rdwu_idem name
    refine ⟨?_, ?_, ?_⟩
    · rw [hout]
      simp only [processLine, hre, hstr2, hnorm2]
    · rw [hout]
      simp only [declsOf, hre, hd, hstr2, hnorm2, hstrip]
    · rw [hout]
      simp only [refsOf, hre, hd]
  | none =>
    cases hr : parseRel l with
    | none =>
      have hout : processLine l = l := by
        simp only [processLine, hd, hr]
      refine ⟨?_, by rw [hout], by rw [hout]⟩
      rw [hout]
      exact hout
    | some v =>
      obtain ⟨ws, src, conn, tgt⟩ := v
      obtain ⟨hws, hsrc, hsrcne, hconn, hok, hconnne, htgt, htgtne, _⟩ := parseRel_sound hr
      have hsstrip : pyStrip src = src := pyStrip_of_wordDot hsrc
      have htstrip : pyStrip tgt = tgt := pyStrip_of_wordDot htgt
      have hcstrip : pyStrip conn = conn := pyStrip_of_connChar hconn
      have hs2_wd : ∀ c ∈ replace_dots_with_underscores src, pyWordDot c = true :=
        rdwu_all_wordDot hsrc
      have hs2_ne : replace_dots_with_underscores src ≠ [] := rdwu_ne_nil hsrcne
      have ht2_wd : ∀ c ∈ replace_dots_with_underscores tgt, pyWordDot c = true :=
        rdwu_all_wordDot htgt
      have ht2_ne : replace_dots_with_underscores tgt ≠ [] := rdwu_ne_nil htgtne
      have hout : processLine l
          = ws ++ (replace_dots_with_underscores src
              ++ (' ' :: (conn ++ ' ' :: replace_dots_with_underscores tgt))) := by
        simp only [processLine, hd, hr, hsstrip, htstrip, hcstrip]
        simp [List.append_assoc]
      have hdre : parseDecl (ws ++ (replace_dots_with_underscores src
          ++ (' ' :: (conn ++ ' ' :: replace_dots_with_underscores tgt)))) = none :=
        parseDecl_relLine_none _ hs2_wd hs2_ne hconn hconnne hws
      have hrre : parseRel (ws ++ (replace_dots_with_underscores src
          ++ (' ' :: (conn ++ ' ' :: replace_dots_with_underscores tgt))))
          = some (ws, replace_dots_with_underscores src, conn,
              replace_dots_with_underscores tgt) :=
        parseRel_relLine hws hs2_wd hs2_ne hconn hconnne hok ht2_wd ht2_ne
      have hsstr2 : pyStrip (replace_dots_with_underscores src)
          = replace_dots_with_underscores src := pyStrip_of_wordDot hs2_wd
      have htstr2 : pyStrip (replace_dots_with_underscores tgt)
          = replace_dots_with_underscores tgt := pyStrip_of_wordDot ht2_wd
      refine ⟨?_, ?_, ?_⟩
      · rw [hout]
        simp only [processLine, hdre, hrre, hsstr2, htstr2, hcstrip,
          rdwu_idem src, rdwu_idem tgt]
        simp [List.append_assoc]
      · rw [hout]
        simp only [declsOf, hdre, hd]
      · rw [hout]
        simp only [refsOf, hdre, hrre, hd, hr, hsstr2, htstr2,
          rdwu_idem src, rdwu_idem tgt, hsstrip, htstrip]

/-- Every identifier recorded in `referenced_classes` is a nonempty string of
word characters (dots are gone after normalization). -/
theorem refsOf_word {l n : Line} (h : n ∈ refsOf l) :
    n ≠ [] ∧ ∀ c ∈ n, pyWord c = true := by
  unfold refsOf at h
  cases hd : parseDecl l with
  | some v => rw [hd] at h; cases h
  | none =>
    rw [hd] at h
    cases hr : parseRel l with
    | none => rw [hr] at h; cases h
    | some v =>
      obtain ⟨ws, src, conn, tgt⟩ := v
      rw [hr] at h
      obtain ⟨hws, hsrc, hsrcne, hconn, hok, hconnne, htgt, htgtne, _⟩ := parseRel_sound hr
      simp only [List.mem_cons, List.not_mem_nil, or_false] at h
      rcases h with h | h
      · subst h
        rw [pyStrip_of_wordDot hsrc]
        exact ⟨rdwu_ne_nil hsrcne, rdwu_all_word hsrc⟩
      · subst h
        rw [pyStrip_of_wordDot htgt]
        exact ⟨rdwu_ne_nil htgtne, rdwu_all_word htgt⟩

/-!
### Facts about synthesized declaration lines `class <identifier>`
-/

theorem parseDecl_mkDecl {n : Line} (hne : n ≠ []) (hw : ∀ c ∈ n, pyWord c = true) :
    parseDecl (kwClass ++ ' ' :: n) = some (kwClass ++ [' '], n, []) := by
  have hcore : DeclCore (kwClass ++ [' ']) [] :=
    ⟨[], [' '], [], [], [], by simp, by simp, by simp, by simp [pySpace], by simp, by simp,
      Or.inl rfl, by simp, by simp, by simp, by simp⟩
  have := parseDecl_complete hcore (fun c hc => pyWord_wordDot (hw c hc)) hne
  have harr : (kwClass ++ [' ']) ++ n ++ ([] : Line) = kwClass ++ ' ' :: n := by
    simp [List.append_assoc]
  rw [harr] at this
  exact this

theorem mkDecl_facts {n : Line} (hne : n ≠ []) (hw : ∀ c ∈ n, pyWord c = true) :
    processLine (kwClass ++ ' ' :: n) = kwClass ++ ' ' :: n ∧
    declsOf (kwClass ++ ' ' :: n) = [n] ∧
    refsOf (kwClass ++ ' ' :: n) = [] := by
  have hp := parseDecl_mkDecl hne hw
  have hstrip : pyStrip n = n :=
    pyStrip_of_wordDot (fun c hc => pyWord_wordDot (hw c hc))
  have hnorm : replace_dots_with_underscores n = n :=
    rdwu_id_of_no_dot (fun c hc => pyWord_ne_dot (hw c hc))
  refine ⟨?_, ?_, ?_⟩
  · simp only [processLine, hp, hstrip, hnorm]
    simp [List.append_assoc]
  · simp only [declsOf, hp, hstrip, hnorm]
  · simp only [refsOf, hp]


/-!
### Document-level sets
-/

theorem mem_declaredOf {x : Line} {ls : List Line} :
    x ∈ declaredOf ls ↔ ∃ l ∈ ls, x ∈ declsOf l := by
  simp [declaredOf, List.mem_flatten, List.mem_map]

theorem mem_referencedOf {x : Line} {ls : List Line} :
    x ∈ referencedOf ls ↔ ∃ l ∈ ls, x ∈ refsOf l := by
  simp [referencedOf, List.mem_flatten, List.mem_map]

theorem map_eq_self {f : Line → Line} {ls : List Line} (h : ∀ l ∈ ls, f l = l) :
    ls.map f = ls := by
  induction ls with
  | nil => rfl
  | cons a t ih =>
    rw [List.map_cons, h a (List.mem_cons_self a t),
        ih (fun l hl => h l (List.mem_cons_of_mem a hl))]

theorem flatten_map_congr {f g : Line → List Line} {ls : List Line}
    (h : ∀ l ∈ ls, f l = g l) : (ls.map f).flatten = (ls.map g).flatten := by
  induction ls with
  | nil => rfl
  | cons a t ih =>
    simp only [List.map_cons, List.flatten_cons]
    rw [h a (List.mem_cons_self a t),
        ih (fun l hl => h l (List.mem_cons_of_mem a hl))]

theorem declaredOf_processed (ls : List Line) :
    declaredOf (processedOf ls) = declaredOf ls := by
  unfold declaredOf processedOf
  rw [List.map_map]
  exact flatten_map_congr (fun l _ => (processLine_idem l).2.1)

theorem referencedOf_processed (ls : List Line) :
    referencedOf (processedOf ls) = referencedOf ls := by
  unfold referencedOf processedOf
  rw [List.map_map]
  exact flatten_map_congr (fun l _ => (processLine_idem l).2.2)

theorem mem_missingOf {x : Line} {ls : List Line} :
    x ∈ missingOf ls ↔ x ∈ referencedOf ls ∧ x ∉ declaredOf ls := by
  unfold missingOf
  rw [List.mem_dedup, List.mem_filter]
  simp

theorem missingOf_nil_closed {ls : List Line} (h : missingOf ls = []) :
    ∀ x ∈ referencedOf ls, x ∈ declaredOf ls := by
  intro x hx
  by_contra hnd
  have : x ∈ missingOf ls := mem_missingOf.mpr ⟨hx, hnd⟩
  rw [h] at this
  cases this

theorem missingOf_nil_of_closed {ls : List Line}
    (h : ∀ x ∈ referencedOf ls, x ∈ declaredOf ls) : missingOf ls = [] := by
  unfold missingOf
  rw [List.dedup_eq_nil]
  rw [List.filter_eq_nil_iff]
  intro a ha
  simp only [decide_not, Bool.not_eq_true', decide_eq_false_iff_not, Decidable.not_not]
  exact h a ha

/-!
### Sorting of the missing set
-/

theorem mem_insertSorted {x y : Line} {l : List Line} :
    y ∈ insertSorted x l ↔ y = x ∨ y ∈ l := by
  induction l with
  | nil => simp [insertSorted]
  | cons a t ih =>
    by_cases hle : strLe x a = true
    · simp [insertSorted, hle, List.mem_cons]
    · simp only [insertSorted, if_neg hle, List.mem_cons, ih]
      tauto

theorem mem_sortStrs {x : Line} {l : List Line} : x ∈ sortStrs l ↔ x ∈ l := by
  induction l with
  | nil => simp [sortStrs]
  | cons a t ih =>
    simp only [sortStrs, mem_insertSorted, List.mem_cons, ih]

theorem strLt_asymm : ∀ a b : Line, strLt a b = true → strLt b a = false := by
  intro a
  induction a with
  | nil =>
    intro b hb
    cases b with
    | nil => cases hb
    | cons c t => rfl
  | cons c t ih =>
    intro b hb
    cases b with
    | nil => cases hb
    | cons d u =>
      simp only [strLt] at hb ⊢
      by_cases hcd : c < d
      · rw [if_neg (lt_asymm hcd), if_pos hcd]
      · rw [if_neg hcd] at hb
        by_cases hdc : d < c
        · rw [if_pos hdc] at hb
          cases hb
        · rw [if_neg hdc] at hb
          rw [if_neg hdc, if_neg hcd]
          exact ih u hb

theorem strLe_total (a b : Line) : strLe a b = true ∨ strLe b a = true := by
  unfold strLe
  by_cases h : strLt b a = true
  · right
    rw [strLt_asymm b a h]
    rfl
  · left
    rw [Bool.not_eq_true] at h
    rw [h]
    rfl

theorem chain_insertSorted {x : Line} {l : List Line}
    (h : List.Chain' (fun a b => strLe a b = true) l) :
    List.Chain' (fun a b => strLe a b = true) (insertSorted x l) := by
  induction l with
  | nil => simp [insertSorted]
  | cons a t ih =>
    by_cases hle : strLe x a = true
    · rw [insertSorted, if_pos hle]
      exact List.Chain'.cons hle h
    · rw [insertSorted, if_neg hle]
      have hax : strLe a x = true := by
        rcases strLe_total x a with h1 | h1
        · exact absurd h1 hle
        · exact h1
      have htail : List.Chain' (fun a b => strLe a b = true) t := h.tail
      have ihx := ih htail
      cases t with
      | nil =>
        simp only [insertSorted]
        exact List.chain'_cons.mpr ⟨hax, List.chain'_singleton x⟩
      | cons b u =>
        by_cases hxb : strLe x b = true
        · rw [insertSorted, if_pos hxb]
          rw [insertSorted, if_pos hxb] at ihx
          exact List.chain'_cons.mpr ⟨hax, ihx⟩
        · rw [insertSorted, if_neg hxb]
          rw [insertSorted, if_neg hxb] at ihx
          have hab : strLe a b = true := (List.chain'_cons.mp h).1
          exact List.chain'_cons.mpr ⟨hab, ihx⟩

theorem chain_sortStrs (l : List Line) :
    List.Chain' (fun a b => strLe a b = true) (sortStrs l) := by
  induction l with
  | nil => simp [sortStrs]
  | cons a t ih => exact chain_insertSorted ih

theorem length_insertSorted (x : Line) (l : List Line) :
    (insertSorted x l).length = l.length + 1 := by
  induction l with
  | nil => rfl
  | cons a t ih =>
    by_cases hle : strLe x a = true
    · rw [insertSorted, if_pos hle]
      rfl
    · rw [insertSorted, if_neg hle]
      simp [ih]

theorem length_sortStrs (l : List Line) : (sortStrs l).length = l.length := by
  induction l with
  | nil => rfl
  | cons a t ih =>
    rw [sortStrs, length_insertSorted, ih]
    rfl

/-!
### The closing-fence scan
-/

theorem lastFenceIdx_none {ls : List Line} (h : lastFenceIdx ls = none) :
    ∀ j, j < ls.length → pyStrip (ls.getD j []) ≠ fenceLine := by
  induction ls with
  | nil => intro j hj; cases hj
  | cons a t ih =>
    rw [lastFenceIdx] at h
    cases ht : lastFenceIdx t with
    | some k => rw [ht] at h; cases h
    | none =>
      rw [ht] at h
      by_cases hf : pyStrip a = fenceLine
      · rw [if_pos hf] at h; cases h
      · intro j hj
        cases j with
        | zero => simpa using hf
        | succ j' =>
          have := ih ht j' (by simpa using Nat.lt_of_succ_lt_succ hj)
          simpa using this


theorem lastFenceIdx_spec {ls : List Line} {i : Nat}
    (h : lastFenceIdx ls = some i) :
    i < ls.length ∧ pyStrip (ls.getD i []) = fenceLine ∧
      ∀ j, i < j → j < ls.length → pyStrip (ls.getD j []) ≠ fenceLine := by
  induction ls generalizing i with
  | nil => cases h
  | cons a t ih =>
    rw [lastFenceIdx] at h
    cases ht : lastFenceIdx t with
    | some k =>
      rw [ht] at h
      injection h with h
      subst h
      obtain ⟨hk, hfk, hafter⟩ := ih ht
      refine ⟨by simpa using Nat.succ_lt_succ hk, by simpa using hfk, ?_⟩
      intro j hj1 hj2
      cases j with
      | zero => cases hj1
      | succ j' =>
        have := hafter j' (Nat.lt_of_succ_lt_succ hj1) (by simpa using Nat.lt_of_succ_lt_succ hj2)
        simpa using this
    | none =>
      rw [ht] at h
      by_cases hf : pyStrip a = fenceLine
      · rw [if_pos hf] at h
        injection h with h
        subst h
        refine ⟨by simp, by simpa using hf, ?_⟩
        intro j hj1 hj2
        cases j with
        | zero => cases hj1
        | succ j' =>
          have hj' : j' < t.length := by simpa using Nat.lt_of_succ_lt_succ hj2
          have := lastFenceIdx_none ht j' hj'
          simpa using this
      · rw [if_neg hf] at h
        cases h


/-!
### Structure of the insertion step and of the whole pass
-/

theorem spliceDecls_eq (plines : List Line) (idx : Nat) (decls : List Line) :
    spliceDecls plines idx decls
      = plines.take idx
        ++ (if 0 < idx ∧ pyStrip (plines.getD (idx - 1) []) ≠ [] then
              ([] : Line) :: decls
            else decls)
        ++ plines.drop idx := rfl

theorem mem_spliceDecls_elim {l : Line} {plines : List Line} {idx : Nat}
    {decls : List Line} (h : l ∈ spliceDecls plines idx decls) :
    l ∈ plines ∨ l = [] ∨ l ∈ decls := by
  rw [spliceDecls_eq] at h
  rcases List.mem_append.mp h with h1 | h2
  · rcases List.mem_append.mp h1 with h1a | h1b
    · exact Or.inl (List.take_subset idx plines h1a)
    · by_cases hc : 0 < idx ∧ pyStrip (plines.getD (idx - 1) []) ≠ []
      · rw [if_pos hc] at h1b
        rcases List.mem_cons.mp h1b with h3 | h3
        · exact Or.inr (Or.inl h3)
        · exact Or.inr (Or.inr h3)
      · rw [if_neg hc] at h1b
        exact Or.inr (Or.inr h1b)
  · exact Or.inl (List.drop_subset idx plines h2)

theorem mem_spliceDecls_of_plines {l : Line} {plines : List Line} {idx : Nat}
    {decls : List Line} (h : l ∈ plines) : l ∈ spliceDecls plines idx decls := by
  rw [spliceDecls_eq]
  rw [← List.take_append_drop idx plines] at h
  rcases List.mem_append.mp h with h1 | h2
  · exact List.mem_append.mpr (Or.inl (List.mem_append.mpr (Or.inl h1)))
  · exact List.mem_append.mpr (Or.inr h2)

theorem mem_spliceDecls_of_decls {l : Line} {plines : List Line} {idx : Nat}
    {decls : List Line} (h : l ∈ decls) : l ∈ spliceDecls plines idx decls := by
  rw [spliceDecls_eq]
  refine List.mem_append.mpr (Or.inl (List.mem_append.mpr (Or.inr ?_)))
  split
  · exact List.mem_cons_of_mem _ h
  · exact h

theorem ensure_missing_nil {ls : List Line} (h : missingOf ls = []) :
    ensure_classes_declared ls = processedOf ls := by
  unfold ensure_classes_declared
  rw [if_pos h]

theorem ensure_missing_fence {ls : List Line} {i : Nat} (h : missingOf ls ≠ [])
    (hf : lastFenceIdx (processedOf ls) = some i) :
    ensure_classes_declared ls = spliceDecls (processedOf ls) i (declLinesOf ls) := by
  unfold ensure_classes_declared
  rw [if_neg h, hf]
  rfl

theorem ensure_missing_nofence {ls : List Line} (h : missingOf ls ≠ [])
    (hf : lastFenceIdx (processedOf ls) = none) :
    ensure_classes_declared ls
      = spliceDecls (processedOf ls ++ [([] : Line)]) ((processedOf ls).length + 1)
          (declLinesOf ls) := by
  unfold ensure_classes_declared
  rw [if_neg h, hf]
  rfl

theorem missing_word {ls : List Line} {n : Line} (h : n ∈ missingOf ls) :
    n ≠ [] ∧ ∀ c ∈ n, pyWord c = true := by
  have href := (mem_missingOf.mp h).1
  rcases mem_referencedOf.mp href with ⟨l, hl, hn⟩
  exact refsOf_word hn

theorem mem_declLinesOf {l : Line} {ls : List Line} :
    l ∈ declLinesOf ls ↔ ∃ n ∈ missingOf ls, l = kwClass ++ ' ' :: n := by
  simp [declLinesOf, List.mem_map, mem_sortStrs, eq_comm]

theorem mem_ensure_elim {l : Line} {ls : List Line}
    (h : l ∈ ensure_classes_declared ls) :
    (∃ l0 ∈ ls, processLine l0 = l) ∨ l = [] ∨
      ∃ n ∈ missingOf ls, l = kwClass ++ ' ' :: n := by
  by_cases hm : missingOf ls = []
  · rw [ensure_missing_nil hm] at h
    rcases List.mem_map.mp h with ⟨l0, hl0, rfl⟩
    exact Or.inl ⟨l0, hl0, rfl⟩
  · cases hf : lastFenceIdx (processedOf ls) with
    | some i =>
      rw [ensure_missing_fence hm hf] at h
      rcases mem_spliceDecls_elim h with h1 | h1 | h1
      · rcases List.mem_map.mp h1 with ⟨l0, hl0, rfl⟩
        exact Or.inl ⟨l0, hl0, rfl⟩
      · exact Or.inr (Or.inl h1)
      · exact Or.inr (Or.inr (mem_declLinesOf.mp h1))
    | none =>
      rw [ensure_missing_nofence hm hf] at h
      rcases mem_spliceDecls_elim h with h1 | h1 | h1
      · rcases List.mem_append.mp h1 with h2 | h2
        · rcases List.mem_map.mp h2 with ⟨l0, hl0, rfl⟩
          exact Or.inl ⟨l0, hl0, rfl⟩
        · simp only [List.mem_singleton] at h2
          exact Or.inr (Or.inl h2)
      · exact Or.inr (Or.inl h1)
      · exact Or.inr (Or.inr (mem_declLinesOf.mp h1))

theorem processed_mem_ensure {l : Line} {ls : List Line} (hl : l ∈ processedOf ls) :
    l ∈ ensure_classes_declared ls := by
  by_cases hm : missingOf ls = []
  · rw [ensure_missing_nil hm]
    exact hl
  · cases hf : lastFenceIdx (processedOf ls) with
    | some i =>
      rw [ensure_missing_fence hm hf]
      exact mem_spliceDecls_of_plines hl
    | none =>
      rw [ensure_missing_nofence hm hf]
      exact mem_spliceDecls_of_plines (List.mem_append.mpr (Or.inl hl))

theorem declLine_mem_ensure {l : Line} {ls : List Line} (hm : missingOf ls ≠ [])
    (hl : l ∈ declLinesOf ls) : l ∈ ensure_classes_declared ls := by
  cases hf : lastFenceIdx (processedOf ls) with
  | some i =>
    rw [ensure_missing_fence hm hf]
    exact mem_spliceDecls_of_decls hl
  | none =>
    rw [ensure_missing_nofence hm hf]
    exact mem_spliceDecls_of_decls hl

/-- The closure property of the whole pass: every identifier referenced by a
relationship line of the output document is declared by some declaration line
of the output document. -/
theorem ensure_closed (ls : List Line) :
    ∀ x ∈ referencedOf (ensure_classes_declared ls),
      x ∈ declaredOf (ensure_classes_declared ls) := by
  intro x hx
  rcases mem_referencedOf.mp hx with ⟨l, hl, hxl⟩
  have hx_ref : x ∈ referencedOf ls := by
    rcases mem_ensure_elim hl with ⟨l0, hl0, rfl⟩ | rfl | ⟨n, hn, rfl⟩
    · rw [(processLine_idem l0).2.2] at hxl
      exact mem_referencedOf.mpr ⟨l0, hl0, hxl⟩
    · rw [refsOf_nil] at hxl
      cases hxl
    · obtain ⟨hne, hw⟩ := missing_word hn
      rw [(mkDecl_facts hne hw).2.2] at hxl
      cases hxl
  by_cases hdecl : x ∈ declaredOf ls
  · rcases mem_declaredOf.mp hdecl with ⟨l0, hl0, hxl0⟩
    have hmem : processLine l0 ∈ processedOf ls := List.mem_map_of_mem _ hl0
    apply mem_declaredOf.mpr
    refine ⟨processLine l0, processed_mem_ensure hmem, ?_⟩
    rw [(processLine_idem l0).2.1]
    exact hxl0
  · have hxm : x ∈ missingOf ls := mem_missingOf.mpr ⟨hx_ref, hdecl⟩
    have hm_ne : missingOf ls ≠ [] := by
      intro h0
      rw [h0] at hxm
      cases hxm
    obtain ⟨hne, hw⟩ := missing_word hxm
    have hline : (kwClass ++ ' ' :: x) ∈ declLinesOf ls :=
      mem_declLinesOf.mpr ⟨x, hxm, rfl⟩
    apply mem_declaredOf.mpr
    refine ⟨kwClass ++ ' ' :: x, declLine_mem_ensure hm_ne hline, ?_⟩
    rw [(mkDecl_facts hne hw).2.1]
    exact List.mem_singleton.mpr rfl

theorem ensure_lines_fixed {l : Line} {ls : List Line}
    (h : l ∈ ensure_classes_declared ls) : processLine l = l := by
  rcases mem_ensure_elim h with ⟨l0, hl0, rfl⟩ | rfl | ⟨n, hn, rfl⟩
  · exact (processLine_idem l0).1
  · exact processLine_nil
  · obtain ⟨hne, hw⟩ := missing_word hn
    exact (mkDecl_facts hne hw).1

theorem ensure_idem_core (ls : List Line) :
    ensure_classes_declared (ensure_classes_declared ls)
      = ensure_classes_declared ls := by
  have hproc : processedOf (ensure_classes_declared ls) = ensure_classes_declared ls :=
    map_eq_self (fun l hl => ensure_lines_fixed hl)
  have hmiss : missingOf (ensure_classes_declared ls) = [] :=
    missingOf_nil_of_closed (ensure_closed ls)
  rw [ensure_missing_nil hmiss, hproc]


/-!
### Soundness of the signature match
-/

theorem parseSig_sound {l sig rest : Line} (h : parseSig l = some (sig, rest)) :
    (∀ c ∈ rest, c ≠ '\n') ∧
    (∃ tail, l = sig ++ rest ++ tail ∧ (tail = [] ∨ ∃ t, tail = '\n' :: t)) ∧
    ∃ ws sg idt params, sig = ws ++ sg :: idt ++ '(' :: params ++ [')'] ∧
      (∀ c ∈ ws, pySpace c = true) ∧ (sg = '+' ∨ sg = '-') ∧
      (∀ c ∈ idt, pyWord c = true) ∧ idt ≠ [] ∧ (∀ c ∈ params, c ≠ ')') := by
  simp only [parseSig] at h
  split at h
  case h_1 => exact absurd h (by simp)
  case h_2 c r2 heq1 =>
  split at h
  case isFalse => exact absurd h (by simp)
  case isTrue hc =>
  split at h
  case isTrue => exact absurd h (by simp)
  case isFalse hidt =>
  split at h
  case h_2 => exact absurd h (by simp)
  case h_1 r4 heq3 =>
  split at h
  case h_2 => exact absurd h (by simp)
  case h_1 r6 heq5 =>
  rw [Option.some.injEq, Prod.mk.injEq] at h
  obtain ⟨hsig, hrest⟩ := h
  set ws := l.takeWhile pySpace with hws_def
  set idt := r2.takeWhile pyWord with hidt_def
  set params := r4.takeWhile (fun c => c != ')') with hparams_def
  have e1 : l = ws ++ l.dropWhile pySpace := (List.takeWhile_append_dropWhile pySpace l).symm
  have e2 : r2 = idt ++ r2.dropWhile pyWord := (List.takeWhile_append_dropWhile pyWord r2).symm
  have e4 : r4 = params ++ r4.dropWhile (fun c => c != ')') :=
    (List.takeWhile_append_dropWhile _ r4).symm
  have e6 : r6 = r6.takeWhile (fun c => c != '\n')
      ++ r6.dropWhile (fun c => c != '\n') :=
    (List.takeWhile_append_dropWhile _ r6).symm
  have hrest_nl : ∀ c ∈ rest, c ≠ '\n' := by
    rw [← hrest]
    exact mem_takeWhile_bne
  refine ⟨hrest_nl, ⟨r6.dropWhile (fun c => c != '\n'), ?_, dropWhile_bne_shape '\n' r6⟩,
    ws, c, idt, params, hsig.symm,
    fun c hc => List.mem_takeWhile_imp hc, ?_,
    fun c hc => List.mem_takeWhile_imp hc, hidt, mem_takeWhile_bne⟩
  · conv_lhs => rw [e1, heq1, e2, heq3, e4, heq5, e6]
    rw [← hsig, ← hrest]
    simp [List.append_assoc]
  · rcases (by simpa [Bool.or_eq_true, beq_iff_eq] using hc : c = '+' ∨ c = '-') with h1 | h1
    · exact Or.inl h1
    · exact Or.inr h1

theorem char_map_sub_id_of_no_brace {s : Line}
    (h : ∀ c ∈ s, c ≠ lbrace ∧ c ≠ rbrace) : char_map_sub s = s := by
  unfold char_map_sub
  induction s with
  | nil => rfl
  | cons a t ih =>
    rw [List.flatMap_cons, if_neg (h a (List.mem_cons_self a t)).1,
        if_neg (h a (List.mem_cons_self a t)).2,
        ih (fun c hc => h c (List.mem_cons_of_mem a hc))]
    rfl

theorem spliceDecls_at_end (p : List Line) (decls : List Line) :
    spliceDecls (p ++ [([] : Line)]) (p.length + 1) decls
      = (p ++ [([] : Line)]) ++ decls := by
  rw [spliceDecls_eq]
  have hlen : (p ++ [([] : Line)]).length = p.length + 1 := by simp
  have hgetD : (p ++ [([] : Line)]).getD (p.length + 1 - 1) [] = ([] : Line) := by
    simp [List.getD_eq_getElem?_getD, List.getElem?_append_right]
  rw [hgetD]
  rw [if_neg (by simp [pyStrip_nil])]
  rw [← hlen, List.take_length, List.drop_length, List.append_nil]


/-!
### Claim theorems
-/

/-- C1: after `ensure_classes_declared` returns, every identifier that appears
(in normalized form) as an endpoint of a relationship line of the output is a
member of the declared set of the output: DeclaredSet ⊇ ReferencedSet, i.e.
each referenced identifier has at least an empty declaration line. -/
theorem C1_referenced_subset_declared (ls : List Line) :
    ∀ x ∈ referencedOf (ensure_classes_declared ls),
      x ∈ declaredOf (ensure_classes_declared ls) :=
  ensure_closed ls

theorem C1_witness :
    ("A".toList) ∈ declaredOf (ensure_classes_declared ["A --> B".toList]) :=
  C1_referenced_subset_declared ["A --> B".toList] ("A".toList) (by decide)

/-- C2: applying `ensure_classes_declared` twice yields the same list as
applying it once: after the first pass every referenced identifier is
declared, so the second pass synthesizes nothing and rewrites no line. -/
theorem C2_ensure_idempotent (ls : List Line) :
    ensure_classes_declared (ensure_classes_declared ls)
      = ensure_classes_declared ls :=
  ensure_idem_core ls

/-- C5: a line that does not match the method-signature shape is returned by
`replace_problematic_characters_in_signature` unchanged, character for
character; in particular the line `class MyClass {` is returned unchanged. -/
theorem C5_nonmatching_unchanged :
    (∀ l : Line, parseSig l = none →
      replace_problematic_characters_in_signature l = l) ∧
    parseSig ("class MyClass \x7b".toList) = none ∧
    replace_problematic_characters_in_signature ("class MyClass \x7b".toList)
      = ("class MyClass \x7b".toList) := by
  refine ⟨?_, by decide, by decide⟩
  intro l h
  simp only [replace_problematic_characters_in_signature, h]

theorem C5_witness :
    replace_problematic_characters_in_signature ("hello world".toList)
      = ("hello world".toList) :=
  C5_nonmatching_unchanged.1 ("hello world".toList) (by decide)

/-- C6: `replace_dots_with_underscores` maps each position of the identifier
independently, sending a dot to an underscore and any other character to
itself (so the length is preserved and no other character is altered); as a
consequence it is the identity on identifiers containing no dots. -/
theorem C6_replace_dots_spec :
    (∀ s : Line, (replace_dots_with_underscores s).length = s.length) ∧
    (∀ (s : Line) (i : Nat),
      (replace_dots_with_underscores s)[i]?
        = (s[i]?).map (fun c => if c = '.' then '_' else c)) ∧
    (∀ s : Line, (∀ c ∈ s, c ≠ '.') → replace_dots_with_underscores s = s) := by
  refine ⟨fun s => by simp [replace_dots_with_underscores],
    fun s i => by simp [replace_dots_with_underscores, List.getElem?_map],
    fun s h => rdwu_id_of_no_dot h⟩

theorem C6_witness :
    (replace_dots_with_underscores ("a.b".toList)).length = ("a.b".toList).length ∧
    (replace_dots_with_underscores ("a.b".toList))[1]?
      = (("a.b".toList)[1]?).map (fun c => if c = '.' then '_' else c) ∧
    replace_dots_with_underscores ("ab_c0".toList) = ("ab_c0".toList) :=
  ⟨C6_replace_dots_spec.1 ("a.b".toList),
   C6_replace_dots_spec.2.1 ("a.b".toList) 1,
   C6_replace_dots_spec.2.2 ("ab_c0".toList) (by decide)⟩

/-- C10: a line matching the declaration shape is never tried against the
relationship pattern: its normalized identifier goes only to DeclaredSet and
nothing on the line goes to ReferencedSet; in particular `class A --> B`
declares `A` and records no reference to `B`. -/
theorem C10_declaration_precedence :
    (∀ l pre name suf : Line, parseDecl l = some (pre, name, suf) →
      declsOf l = [replace_dots_with_underscores name] ∧ refsOf l = []) ∧
    parseDecl ("class A --> B".toList)
      = some ("class ".toList, "A".toList, " --> B".toList) ∧
    declsOf ("class A --> B".toList) = ["A".toList] ∧
    refsOf ("class A --> B".toList) = [] := by
  refine ⟨?_, by decide, by decide, by decide⟩
  intro l pre name suf h
  obtain ⟨hcore, hwd, hne, _⟩ := parseDecl_sound h
  constructor
  · simp only [declsOf, h, pyStrip_of_wordDot hwd]
  · simp only [refsOf, h]

theorem C10_witness :
    declsOf ("class X.y \x7b".toList)
      = [replace_dots_with_underscores ("X.y".toList)] ∧
    refsOf ("class X.y \x7b".toList) = [] :=
  C10_declaration_precedence.1 ("class X.y \x7b".toList)
    ("class ".toList) ("X.y".toList) (" \x7b".toList) (by decide)


/-- Structural description of the declaration rewrite: the rewritten line is
the matched prefix, the normalized identifier and the matched suffix, and the
unmatched tail of the line (starting at the first closing brace, when one is
present) is dropped. -/
theorem decl_rewrite_groups (l pre name suf : Line)
    (h : parseDecl l = some (pre, name, suf)) :
    processLine l = pre ++ replace_dots_with_underscores name ++ suf ∧
    ∃ rest, l = pre ++ name ++ suf ++ rest ∧
      (rest = [] ∨ ∃ t, rest = rbrace :: t) := by
  obtain ⟨hcore, hwd, hne, rest, hl, hr⟩ := parseDecl_sound h
  refine ⟨?_, rest, hl, hr⟩
  simp only [processLine, h, pyStrip_of_wordDot hwd]

/-- C3: evaluation at the failing input `class A { }`.  The identifier `A` is
already normalized, so by the claim (and by the code's own comment "preserve
the rest (including braces)" and docstring "preserves curly braces in existing
class declarations") the line should come back unchanged; the suffix group
`\s*\{?[^}]*` stops before the first closing brace, so the code returns
`class A { `, dropping the closing brace. -/
theorem C3_brace_body_dropped :
    replace_dots_with_underscores ("A".toList) = ("A".toList) ∧
    parseDecl ("class A \x7b \x7d".toList)
      = some ("class ".toList, "A".toList, " \x7b ".toList) ∧
    processLine ("class A \x7b \x7d".toList) = ("class A \x7b ".toList) ∧
    ensure_classes_declared [("class A \x7b \x7d".toList)]
      = [("class A \x7b ".toList)] ∧
    ("class A \x7b ".toList) ≠ ("class A \x7b \x7d".toList) := by decide

/-- A boundary fact documenting the line domain: on a string that is not a
single line (it embeds a newline), the rest group `(.*)` of the signature
regex stops at the newline, and the text from the newline onward is dropped.
A `Line` of the document — the unit the merged file is a newline-join of —
contains no newline, so this behaviour is outside the line domain. -/
theorem newline_tail_dropped :
    replace_problematic_characters_in_signature ("+f(a): x\ny".toList)
      = ("+f(a): x".toList) := by decide

/-- C4: for every line matching the method-signature shape (lines contain no
newline: the document is a newline-join of its lines), the line splits exactly
as signature ++ suffix, the result is the brace-escaped signature followed by
the suffix byte-identical, and `char_map_sub` is exactly the map replacing
every opening brace by `&#123;` and every closing brace by `&#125;` while
keeping every other character (it is an append-homomorphism determined by its
values on single characters).  The spec scenario line maps as stated. -/
theorem C4_signature_sanitization :
    (∀ l sig rest : Line, (∀ c ∈ l, c ≠ '\n') → parseSig l = some (sig, rest) →
      l = sig ++ rest ∧
      replace_problematic_characters_in_signature l = char_map_sub sig ++ rest) ∧
    (∀ a b : Line, char_map_sub (a ++ b) = char_map_sub a ++ char_map_sub b) ∧
    char_map_sub [lbrace] = "&#123;".toList ∧
    char_map_sub [rbrace] = "&#125;".toList ∧
    (∀ c : Char, c ≠ lbrace → c ≠ rbrace → char_map_sub [c] = [c]) ∧
    replace_problematic_characters_in_signature
        ("  +initialize(config: \x7b url: string; port: number; \x7d): void".toList)
      = ("  +initialize(config: &#123; url: string; port: number; &#125;): void".toList) := by
  refine ⟨?_, ?_, by decide, by decide, ?_, by decide⟩
  · intro l sig rest hnl h
    obtain ⟨hrest_nl, ⟨tail, hl, htail⟩, _⟩ := parseSig_sound h
    have htail_nil : tail = [] := by
      rcases htail with h0 | ⟨t, rfl⟩
      · exact h0
      · exact absurd rfl (hnl '\n' (by rw [hl]; simp))
    subst htail_nil
    rw [List.append_nil] at hl
    exact ⟨hl, by simp only [replace_problematic_characters_in_signature, h]⟩
  · intro a b
    unfold char_map_sub
    exact List.flatMap_append a b _
  · intro c h1 h2
    unfold char_map_sub
    rw [List.flatMap_cons, if_neg h1, if_neg h2]
    rfl

theorem C4_witness :
    ("+f(a\x7bb): r".toList) = ("+f(a\x7bb)".toList) ++ (": r".toList) ∧
    replace_problematic_characters_in_signature ("+f(a\x7bb): r".toList)
      = char_map_sub ("+f(a\x7bb)".toList) ++ (": r".toList) :=
  C4_signature_sanitization.1 ("+f(a\x7bb): r".toList) ("+f(a\x7bb)".toList)
    (": r".toList) (by decide) (by decide)

/-- C7: a relationship line is rewritten as the original leading whitespace,
the normalized source, one space, the connector exactly as matched, one space,
and the normalized target — any other original spacing around the endpoints
and connector (and any trailing text after the target) is discarded — and both
normalized endpoints are recorded in ReferencedSet. -/
theorem C7_relationship_rewrite (l ws src conn tgt : Line)
    (hd : parseDecl l = none) (hr : parseRel l = some (ws, src, conn, tgt)) :
    processLine l
      = ws ++ replace_dots_with_underscores src ++ ' ' :: conn
          ++ ' ' :: replace_dots_with_underscores tgt ∧
    refsOf l = [replace_dots_with_underscores src,
                replace_dots_with_underscores tgt] ∧
    ∃ gap1 gap2 rest,
      l = ws ++ (src ++ (gap1 ++ (conn ++ (gap2 ++ (tgt ++ rest))))) ∧
      (∀ c ∈ gap1, pySpace c = true) ∧ (∀ c ∈ gap2, pySpace c = true) ∧
      (∀ c ∈ ws, pySpace c = true) := by
  obtain ⟨hws, hsrc, hsrcne, hconn, hok, hconnne, htgt, htgtne,
    gap1, gap2, rest, hl, hg1, hg2⟩ := parseRel_sound hr
  refine ⟨?_, ?_, gap1, gap2, rest, hl, hg1, hg2, hws⟩
  · simp only [processLine, hd, hr, pyStrip_of_wordDot hsrc,
      pyStrip_of_wordDot htgt, pyStrip_of_connChar hconn]
  · simp only [refsOf, hd, hr, pyStrip_of_wordDot hsrc, pyStrip_of_wordDot htgt]

theorem C7_witness :
    processLine ("  A.b   -->  C  x".toList)
      = ("  ".toList) ++ replace_dots_with_underscores ("A.b".toList)
          ++ ' ' :: ("-->".toList)
          ++ ' ' :: replace_dots_with_underscores ("C".toList) ∧
    refsOf ("  A.b   -->  C  x".toList)
      = [replace_dots_with_underscores ("A.b".toList),
         replace_dots_with_underscores ("C".toList)] ∧
    ∃ gap1 gap2 rest,
      ("  A.b   -->  C  x".toList)
        = ("  ".toList) ++ (("A.b".toList) ++ (gap1 ++ (("-->".toList)
            ++ (gap2 ++ (("C".toList) ++ rest))))) ∧
      (∀ c ∈ gap1, pySpace c = true) ∧ (∀ c ∈ gap2, pySpace c = true) ∧
      (∀ c ∈ ("  ".toList), pySpace c = true) :=
  C7_relationship_rewrite ("  A.b   -->  C  x".toList) ("  ".toList)
    ("A.b".toList) ("-->".toList) ("C".toList) (by decide) (by decide)


/-- C8: when the missing set is non-empty, the pass builds one bodiless line
`class <identifier>` per missing identifier, sorted lexicographically, and
splices the block immediately before the last line whose stripped content is
the closing fence (prepending one blank line when the line just before the
insertion point is non-blank); with no closing fence it appends a blank line
and inserts the block at the end.  In the spec scenario the sorted
declarations for Extension, FilteredTreeDataProvider and
vscode_ExtensionContext are inserted before the closing fence, separated by
exactly one blank line from the preceding content. -/
theorem C8_missing_insertion :
    (∀ (ls : List Line) (i : Nat), missingOf ls ≠ [] →
      lastFenceIdx (processedOf ls) = some i →
      ensure_classes_declared ls
        = (processedOf ls).take i
          ++ (if 0 < i ∧ pyStrip ((processedOf ls).getD (i - 1) []) ≠ [] then
                ([] : Line) :: declLinesOf ls
              else declLinesOf ls)
          ++ (processedOf ls).drop i) ∧
    (∀ ls : List Line, missingOf ls ≠ [] →
      lastFenceIdx (processedOf ls) = none →
      ensure_classes_declared ls
        = (processedOf ls ++ [([] : Line)]) ++ declLinesOf ls) ∧
    (∀ ls : List Line,
      declLinesOf ls = (sortStrs (missingOf ls)).map (fun n => kwClass ++ ' ' :: n) ∧
      List.Chain' (fun a b => strLe a b = true) (sortStrs (missingOf ls)) ∧
      (∀ x, x ∈ sortStrs (missingOf ls) ↔ x ∈ missingOf ls) ∧
      (sortStrs (missingOf ls)).length = (missingOf ls).length) ∧
    (∀ (ls : List Line) (i : Nat), lastFenceIdx ls = some i →
      i < ls.length ∧ pyStrip (ls.getD i []) = fenceLine ∧
      ∀ j, i < j → j < ls.length → pyStrip (ls.getD j []) ≠ fenceLine) ∧
    ensure_classes_declared (List.map String.toList
      ["```mermaid", "classDiagram", "    class ChatHistoryManager \x7b",
       "    \x7d", "", "    Extension --> vscode.ExtensionContext",
       "    Extension --> FilteredTreeDataProvider", "", "```"])
      = List.map String.toList
      ["```mermaid", "classDiagram", "    class ChatHistoryManager \x7b",
       "    \x7d", "", "    Extension --> vscode_ExtensionContext",
       "    Extension --> FilteredTreeDataProvider", "", "class Extension",
       "class FilteredTreeDataProvider", "class vscode_ExtensionContext",
       "```"] := by
  refine ⟨?_, ?_, ?_, fun ls i h => lastFenceIdx_spec h, by decide⟩
  · intro ls i hm hf
    rw [ensure_missing_fence hm hf, spliceDecls_eq]
  · intro ls hm hf
    rw [ensure_missing_nofence hm hf, spliceDecls_at_end]
  · intro ls
    exact ⟨rfl, chain_sortStrs (missingOf ls),
      fun x => mem_sortStrs, length_sortStrs (missingOf ls)⟩

theorem C8_witness :
    ensure_classes_declared [("A --> B".toList)]
      = (processedOf [("A --> B".toList)] ++ [([] : Line)])
        ++ declLinesOf [("A --> B".toList)] :=
  C8_missing_insertion.2.1 [("A --> B".toList)] (by decide) (by decide)

/-- Position of an element before the insertion point of a splice. -/
theorem splice_pos_lt {α : Type} (p ins : List α) {k j : Nat} (hk : k ≤ p.length)
    (hj : j < k) : (p.take k ++ ins ++ p.drop k)[j]? = p[j]? := by
  have hlen : (p.take k).length = k := by
    rw [List.length_take]
    exact min_eq_left hk
  rw [List.getElem?_append_left (by rw [List.length_append, hlen]; omega),
      List.getElem?_append_left (by rw [hlen]; omega),
      List.getElem?_take, if_pos hj]

/-- Position of an element at or after the insertion point of a splice: it is
shifted by the length of the inserted block. -/
theorem splice_pos_ge {α : Type} (p ins : List α) {k j : Nat} (hk : k ≤ p.length)
    (hj : k ≤ j) : (p.take k ++ ins ++ p.drop k)[j + ins.length]? = p[j]? := by
  have hlen : (p.take k).length = k := by
    rw [List.length_take]
    exact min_eq_left hk
  rw [List.getElem?_append_right (by rw [List.length_append, hlen]; omega)]
  rw [List.length_append, hlen]
  have hidx : j + ins.length - (k + ins.length) = j - k := by omega
  rw [hidx, List.getElem?_drop]
  have hkj : k + (j - k) = j := by omega
  rw [hkj]

/-- C9 counterexample: the claim says a passthrough line keeps its original
position, but splicing the synthesized declarations before the closing fence
shifts every later line: in `["A --> B", "```", "tail"]` the passthrough line
`tail` sits at index 2 of the input and at index 5 of the output (index 2 of
the output holds `class A`). -/
theorem C9_counterexample :
    parseDecl ("tail".toList) = none ∧ parseRel ("tail".toList) = none ∧
    (["A --> B".toList, "```".toList, "tail".toList])[2]?
      = some ("tail".toList) ∧
    (ensure_classes_declared ["A --> B".toList, "```".toList, "tail".toList])
      = ["A --> B".toList, "".toList, "class A".toList, "class B".toList,
         "```".toList, "tail".toList] ∧
    (ensure_classes_declared ["A --> B".toList, "```".toList, "tail".toList])[2]?
      ≠ some ("tail".toList) := by decide

/-- C9 (amended): `ensure_classes_declared` is total — it returns a line list
for every input and has no error outcome — and every line matching neither the
declaration nor the relationship shape is emitted unchanged (already by the
rewrite phase, at its own index).  The output is the rewritten line sequence
with one contiguous block of blank/synthesized declaration lines spliced in at
one position `k`: lines before `k` keep their original positions and every
line at position `j ≥ k` moves to position `j` plus the block length, so the
original relative order is always preserved but absolute positions at or after
the insertion point shift when declarations are synthesized. -/
theorem C9_passthrough_order (ls : List Line) :
    (∀ l ∈ ls, parseDecl l = none → parseRel l = none → processLine l = l) ∧
    (∀ (j : Nat) (l : Line), ls[j]? = some l →
      parseDecl l = none → parseRel l = none → (processedOf ls)[j]? = some l) ∧
    ∃ k ins, k ≤ (processedOf ls).length ∧
      ensure_classes_declared ls
        = (processedOf ls).take k ++ ins ++ (processedOf ls).drop k ∧
      (∀ j, j < k →
        (ensure_classes_declared ls)[j]? = (processedOf ls)[j]?) ∧
      (∀ j, k ≤ j →
        (ensure_classes_declared ls)[j + ins.length]? = (processedOf ls)[j]?) ∧
      (∀ l ∈ ins, l = [] ∨ ∃ n ∈ missingOf ls, l = kwClass ++ ' ' :: n) := by
  refine ⟨?_, ?_, ?_⟩
  · intro l hl hd hr
    simp only [processLine, hd, hr]
  · intro j l hj hd hr
    unfold processedOf
    rw [List.getElem?_map, hj, Option.map_some']
    simp only [processLine, hd, hr]
  · have main : ∃ k ins, k ≤ (processedOf ls).length ∧
        ensure_classes_declared ls
          = (processedOf ls).take k ++ ins ++ (processedOf ls).drop k ∧
        (∀ l ∈ ins, l = [] ∨ ∃ n ∈ missingOf ls, l = kwClass ++ ' ' :: n) := by
      by_cases hm : missingOf ls = []
      · refine ⟨(processedOf ls).length, [], le_refl _, ?_, by simp⟩
        rw [ensure_missing_nil hm]
        simp
      · cases hf : lastFenceIdx (processedOf ls) with
        | some i =>
          obtain ⟨hi, _, _⟩ := lastFenceIdx_spec hf
          refine ⟨i,
            (if 0 < i ∧ pyStrip ((processedOf ls).getD (i - 1) []) ≠ [] then
              ([] : Line) :: declLinesOf ls
            else declLinesOf ls), le_of_lt hi, ?_, ?_⟩
          · rw [ensure_missing_fence hm hf, spliceDecls_eq]
          · intro l hl
            split at hl
            · rcases List.mem_cons.mp hl with h1 | h1
              · exact Or.inl h1
              · exact Or.inr (mem_declLinesOf.mp h1)
            · exact Or.inr (mem_declLinesOf.mp hl)
        | none =>
          refine ⟨(processedOf ls).length, ([] : Line) :: declLinesOf ls,
            le_refl _, ?_, ?_⟩
          · rw [ensure_missing_nofence hm hf, spliceDecls_at_end]
            simp
          · intro l hl
            rcases List.mem_cons.mp hl with h1 | h1
            · exact Or.inl h1
            · exact Or.inr (mem_declLinesOf.mp h1)
    obtain ⟨k, ins, hk, heq, hins⟩ := main
    refine ⟨k, ins, hk, heq, ?_, ?_, hins⟩
    · intro j hj
      rw [heq]
      exact splice_pos_lt _ _ hk hj
    · intro j hj
      rw [heq]
      exact splice_pos_ge _ _ hk hj

theorem C9_witness :
    (∀ l ∈ [("A --> B".toList), ("```".toList), ("tail".toList)],
      parseDecl l = none → parseRel l = none → processLine l = l) ∧
    (∀ (j : Nat) (l : Line),
      ([("A --> B".toList), ("```".toList), ("tail".toList)])[j]? = some l →
      parseDecl l = none → parseRel l = none →
      (processedOf [("A --> B".toList), ("```".toList), ("tail".toList)])[j]?
        = some l) ∧
    ∃ k ins,
      k ≤ (processedOf [("A --> B".toList), ("```".toList), ("tail".toList)]).length ∧
      ensure_classes_declared [("A --> B".toList), ("```".toList), ("tail".toList)]
        = (processedOf [("A --> B".toList), ("```".toList), ("tail".toList)]).take k
          ++ ins
          ++ (processedOf [("A --> B".toList), ("```".toList), ("tail".toList)]).drop k ∧
      (∀ j, j < k →
        (ensure_classes_declared
            [("A --> B".toList), ("```".toList), ("tail".toList)])[j]?
          = (processedOf [("A --> B".toList), ("```".toList), ("tail".toList)])[j]?) ∧
      (∀ j, k ≤ j →
        (ensure_classes_declared
            [("A --> B".toList), ("```".toList), ("tail".toList)])[j + ins.length]?
          = (processedOf [("A --> B".toList), ("```".toList), ("tail".toList)])[j]?) ∧
      (∀ l ∈ ins, l = [] ∨
        ∃ n ∈ missingOf [("A --> B".toList), ("```".toList), ("tail".toList)],
          l = kwClass ++ ' ' :: n) :=
  C9_passthrough_order [("A --> B".toList), ("```".toList), ("tail".toList)]

end ConcatDiagrams
